import Mathlib

/-!
Verification of the core routing and JSON-validation engines of the
`wsgi_tools` package (`wsgi_tools/routing.py`, `wsgi_tools/filtered_parser.py`).

Python strings are modelled as `List Char`; Python functions that can raise
are modelled with `Option`/`Except` (`none` = an exception escapes).  Each
definition is a direct translation of the Python function it is named after.
-/

namespace WsgiTools

/-- Python strings are modelled as lists of characters. -/
abbrev Str : Type := List Char

/-- Coercion from Lean string literals to the `Str` model. -/
def chars (st : String) : Str := st.data

/-- Python `s.split(c)` for a single-character separator `c`: splits at every
occurrence of `c`, keeping empty components; the result is always non-empty. -/
def splitOnChar (c : Char) : Str → List Str
  | [] => [[]]
  | x :: xs =>
    if x = c then [] :: splitOnChar c xs
    else
      match splitOnChar c xs with
      | [] => [[x]]
      | h :: t => (x :: h) :: t

/-- Python `hay.find(sub)`: index of the first occurrence of `sub` in `hay`
(`none` models the return value `-1`).  `find` of the empty string is `0`. -/
def pyFind (hay sub : Str) : Option Nat :=
  if (hay.take sub.length) = sub then some 0
  else
    match hay with
    | [] => none
    | _ :: t => Option.map (fun n => n + 1) (pyFind t sub)

/-- Python `' or '.join(l)`-style joining of a list of strings by `sep`. -/
def joinSep (sep : Str) : List Str → Str
  | [] => []
  | [x] => x
  | x :: y :: t => x ++ sep ++ joinSep sep (y :: t)

/-! ## ContentTypeRule (`wsgi_tools/routing.py`, class `ContentTypeRule`) -/

/-- `ContentTypeRule.check(environ, value)`.  `ct` is
`environ.get('CONTENT_TYPE')` (`none` when the header is absent), `value` the
route's expected value (`none` models the Python `None` arg).  The result
`none` models an uncaught exception: `split('/')[1]` raises `IndexError`
when the declared content-type contains no `'/'`. -/
def contentTypeCheck (ct : Option Str) (value : Option Str) : Option Bool :=
  match ct with
  | none => some value.isNone
  | some ctv =>
    match value with
    | none => some false
    | some v =>
      if '/' ∈ v then some (decide (v = ctv))
      else
        match splitOnChar '/' ctv with
        | _ :: second :: _ => some (decide (v ∈ splitOnChar '+' second))
        | _ => none

/-- Spec-side reading of C5: the part of the content-type after the (first)
`'/'`. -/
def afterFirstSlash (ct : Str) : Str :=
  (ct.dropWhile (fun c => ¬ (c = '/'))).tail

/-- Spec-side reading of the amended C5: the second `'/'`-separated segment of
the content-type, i.e. the text between the first `'/'` and the next `'/'`
(or the end of the string). -/
def specSecondSeg (ct : Str) : Str :=
  (afterFirstSlash ct).takeWhile (fun c => ¬ (c = '/'))

/-! ## PathRule (`wsgi_tools/routing.py`, class `PathRule`) -/

/-- One element of a `PathRule` route value: a literal string segment or a
converter callable.  A converter models a Python callable taking a `str`;
`none` models it raising `ValueError`. -/
inductive PatElem (α : Type) : Type where
  | lit : Str → PatElem α
  | conv : (Str → Option α) → PatElem α

/-- The converter-input computation of `PathRule.check`: if the converter is
the pattern's last element, `content = path; path = ''`; otherwise
`content_end = path.find(value[i+1])` bounds the input (with `some none`
modelling `content_end == -1`, i.e. `return False`).  The outer `none`
models the `TypeError` of `find` on a non-string (two adjacent
converters). -/
def convSplit {α : Type} (rest : List (PatElem α)) (path : Str) :
    Option (Option (Str × Str)) :=
  match rest with
  | [] => some (some (path, []))
  | .conv _ :: _ => none
  | .lit nl :: _ =>
    match pyFind path nl with
    | none => some none
    | some ce => some (some (path.take ce, path.drop ce))

/-- The loop body of `PathRule.check`.  The `Bool` argument is the local
variable `string`, the `List α` accumulator the local `args`.  Outer `none`
models an uncaught `TypeError` (a converter where the alternation flag
expects a literal, or vice versa — impossible for well-formed patterns);
`some none` models `return False`; `some (some args)` models `return True`
with the captured values. -/
def pathAux {α : Type} : Bool → List (PatElem α) → Str → List α →
    Option (Option (List α))
  | _, [], path, acc => some (if path = [] then some acc else none)
  | isStr, e :: rest, path, acc =>
    if isStr then
      match e with
      | .lit l =>
        if path.take l.length = l then pathAux false rest (path.drop l.length) acc
        else some none
      | .conv _ => none
    else
      match e with
      | .lit _ => none
      | .conv f =>
        match convSplit rest path with
        | none => none
        | some none => some none
        | some (some (content, newPath)) =>
          match f content with
          | some a => pathAux true rest newPath (acc ++ [a])
          | none => some none

/-- `PathRule.check(environ, value)`.  `selfArgs` is the value of the mutable
field `self.args` before the call; the second component of the result is the
value of that field after the call (the source assigns `self.args = args`
only on the success path). -/
def pathRuleCheck {α : Type} (selfArgs : List α) (pattern : List (PatElem α))
    (pathInfo : Str) : Option (Bool × List α) :=
  match pathAux true pattern pathInfo [] with
  | none => none
  | some none => some (false, selfArgs)
  | some (some args) => some (true, args)

/-- Patterns alternating literal/converter as the loop flag expects; `true`
means the next element must be a literal. -/
inductive Alternating {α : Type} : Bool → List (PatElem α) → Prop where
  | nil : ∀ b, Alternating b []
  | lit : ∀ (l : Str) rest, Alternating false rest →
      Alternating true (PatElem.lit l :: rest)
  | conv : ∀ (f : Str → Option α) rest, Alternating true rest →
      Alternating false (PatElem.conv f :: rest)

/-- A well-formed path pattern: starts with a literal and strictly alternates
literals with converter callables. -/
def WellFormedPat {α : Type} (p : List (PatElem α)) : Prop := Alternating true p

/-- The needle `nl` occurs in `st` at position `i` (spec-side notion). -/
def OccursAt (nl st : Str) (i : Nat) : Prop := (st.drop i).take nl.length = nl

/-- Spec-side boundary condition of claim C2: in `seg ++ p` the first
occurrence of the next literal `nl` is exactly at the end of the converter
input `seg`. -/
def FirstOcc (nl seg p : Str) : Prop :=
  p.take nl.length = nl ∧ ∀ i, i < seg.length → ¬ OccursAt nl (seg ++ p) i

/-- Spec-side decomposition relation of claim C2: the path decomposes into the
pattern's literals as exact prefixes interleaved with converter inputs — each
input being the remaining path up to the first occurrence of the next
literal, or the whole remainder if the converter is last — every converter
parses its input, and nothing is left over; the captured values are the
converter outputs in pattern order. -/
inductive Decomp {α : Type} : List (PatElem α) → Str → List α → Prop where
  | nil : Decomp [] [] []
  | lit : ∀ (l : Str) rest (p : Str) args, Decomp rest p args →
      Decomp (PatElem.lit l :: rest) (l ++ p) args
  | convLast : ∀ (f : Str → Option α) (p : Str) (a : α), f p = some a →
      Decomp [PatElem.conv f] p [a]
  | convMid : ∀ (f : Str → Option α) (nl : Str) rest (seg p : Str) (a : α) args,
      FirstOcc nl seg p → f seg = some a →
      Decomp (PatElem.lit nl :: rest) p args →
      Decomp (PatElem.conv f :: PatElem.lit nl :: rest) (seg ++ p) (a :: args)

/-! ## JSON values (`wsgi_tools.utils.JSONValue`) -/

/-- The JSON value tree produced by `json.loads`: `None`, `bool`, `int`,
`float`, `str`, `list`, `dict`.  Python floats are modelled as rationals
(only their ordering is ever used by the filters). -/
inductive JSONValue : Type where
  | null : JSONValue
  | bool : Bool → JSONValue
  | int : Int → JSONValue
  | float : Rat → JSONValue
  | str : Str → JSONValue
  | arr : List JSONValue → JSONValue
  | obj : List (Str × JSONValue) → JSONValue

/-- Python `value.__class__.__name__` for a JSON value. -/
def className : JSONValue → Str
  | .null => chars "NoneType"
  | .bool _ => chars "bool"
  | .int _ => chars "int"
  | .float _ => chars "float"
  | .str _ => chars "str"
  | .arr _ => chars "list"
  | .obj _ => chars "dict"

mutual

/-- Python `'%s' % value` (i.e. `str(value)`) for a JSON value, used only
inside the filters' reason messages.  Float rendering is approximate (a
rational is printed instead of a double); no theorem below depends on the
rendered text of a value. -/
def pyStr : JSONValue → Str
  | .null => chars "None"
  | .bool true => chars "True"
  | .bool false => chars "False"
  | .int n => chars (toString n)
  | .float q => chars (toString q)
  | .str st => st
  | .arr l => '[' :: (joinSep (chars ", ") (pyReprList l) ++ [']'])
  | .obj es =>
    Char.ofNat 123 :: (joinSep (chars ", ") (pyReprEntries es) ++ [Char.ofNat 125])

/-- Python `repr(value)`: as `str(value)` except that strings are quoted
(escaping inside quoted strings is not modelled). -/
def pyRepr : JSONValue → Str
  | .str st => Char.ofNat 39 :: (st ++ [Char.ofNat 39])
  | .null => pyStr .null
  | .bool b => pyStr (.bool b)
  | .int n => pyStr (.int n)
  | .float q => pyStr (.float q)
  | .arr l => pyStr (.arr l)
  | .obj es => pyStr (.obj es)

/-- `repr` of every element of a list. -/
def pyReprList : List JSONValue → List Str
  | [] => []
  | v :: t => pyRepr v :: pyReprList t

/-- `'key-repr: value-repr'` for every entry of a dict. -/
def pyReprEntries : List (Str × JSONValue) → List Str
  | [] => []
  | (k, v) :: t =>
    (Char.ofNat 39 :: (k ++ [Char.ofNat 39]) ++ chars ": " ++ pyRepr v) ::
      pyReprEntries t

end

/-! ## Filter combinators (`wsgi_tools/filtered_parser.py`) -/

/-- A filter: a callable from a JSON value to `(accepted, reason)`. -/
abbrev Filt : Type := JSONValue → Bool × Str

/-- Python `value.__class__ == int` (Python `bool` is not `int` here since
the source compares classes exactly). -/
def isInt : JSONValue → Bool
  | .int _ => true
  | _ => false

/-- Python `value.__class__ == float`. -/
def isFloat : JSONValue → Bool
  | .float _ => true
  | _ => false

/-- Python `value.__class__ == bool`. -/
def isBool : JSONValue → Bool
  | .bool _ => true
  | _ => false

/-- Python `value.__class__ == str`. -/
def isStr : JSONValue → Bool
  | .str _ => true
  | _ => false

/-- Python `value is None`. -/
def isNull : JSONValue → Bool
  | .null => true
  | _ => false

/-- Python `value.__class__ == dict`. -/
def isObj : JSONValue → Bool
  | .obj _ => true
  | _ => false

/-- Numeric value of an `int` or `float` JSON value (only ever applied after
the class checks have passed). -/
def numVal : JSONValue → Rat
  | .int n => (n : Rat)
  | .float q => q
  | _ => 0

/-- `'%s' % self.min` where `self.min` is an optional number. -/
def optRatText : Option Rat → Str
  | none => chars "None"
  | some q => chars (toString q)

/-- `Number.__call__(self, value)` with fields `min`, `max`, `require_int`.
The `elif` chain of the source, including the source's max-branch message
that interpolates `self.min` and its spelling `smaler`. -/
def numberCall (mn mx : Option Rat) (requireInt : Bool) (v : JSONValue) :
    Bool × Str :=
  if requireInt && !(isInt v) then
    (false, chars "expected int, found \x27" ++ pyStr v ++
      chars "\x27 of type " ++ className v)
  else if !(isFloat v) && !(isInt v) then
    (false, chars "expected number, found \x27" ++ pyStr v ++
      chars "\x27 of type " ++ className v)
  else if (match mn with | some m => decide (numVal v < m) | none => false) then
    (false, chars "expected number bigger than " ++ optRatText mn ++
      chars ", found " ++ pyStr v)
  else if (match mx with | some m => decide (m < numVal v) | none => false) then
    (false, chars "expected number smaler than " ++ optRatText mn ++
      chars ", found " ++ pyStr v)
  else
    (true, [])

/-- The filter function `Boolean`. -/
def booleanCall (v : JSONValue) : Bool × Str :=
  (isBool v, chars "expected boolean, found \x27" ++ pyStr v ++
    chars "\x27 of type " ++ className v)

/-- The filter function `String`. -/
def stringCall (v : JSONValue) : Bool × Str :=
  (isStr v, chars "expected string, found \x27" ++ pyStr v ++
    chars "\x27 of type " ++ className v)

/-- The filter function `Null`. -/
def nullCall (v : JSONValue) : Bool × Str :=
  (isNull v, chars "expected null, found \x27" ++ pyStr v ++
    chars "\x27 of type " ++ className v)

/-- The `for i, e in enumerate(value)` loop of `Array.__call__`. -/
def arrayLoop (f : Filt) : List JSONValue → Nat → Bool × Str
  | [], _ => (true, [])
  | e :: rest, i =>
    let p := f e
    if p.1 then arrayLoop f rest (i + 1)
    else (false, chars (toString i) ++ chars ": " ++ p.2)

/-- `Array.__call__(self, value)` with child filter `f`. -/
def arrayCall (f : Filt) (v : JSONValue) : Bool × Str :=
  match v with
  | .arr l => arrayLoop f l 0
  | _ =>
    (false, chars "expected list, found \x27" ++ pyStr v ++
      chars "\x27 of type " ++ className v)

/-- The `for filter in self.options` loop of `Options.__call__`; `reasons`
is the accumulated local list of child reasons. -/
def optionsLoop (v : JSONValue) : List Filt → List Str → Bool × Str
  | [], reasons =>
    (false, chars "Value not allowed (" ++ joinSep (chars " or ") reasons ++
      chars ").")
  | f :: rest, reasons =>
    let p := f v
    if p.1 then (true, []) else optionsLoop v rest (reasons ++ [p.2])

/-- `Options.__call__(self, value)` with child filters `os`. -/
def optionsCall (os : List Filt) (v : JSONValue) : Bool × Str :=
  optionsLoop v os []

/-- `Object.__init__`: each raw entry is either a bare filter (required) or a
`(filter, optional-flag)` tuple; normalised to `(key, filter, optional)`. -/
def objectInit (raw : List (Str × (Filt ⊕ (Filt × Bool)))) :
    List (Str × Filt × Bool) :=
  raw.map (fun e =>
    match e.2 with
    | .inl f => (e.1, f, false)
    | .inr p => (e.1, p.1, p.2))

/-- Python `value[key]` on a dict modelled as an association list. -/
def lookupV (kvs : List (Str × JSONValue)) (k : Str) : Option JSONValue :=
  Option.map Prod.snd (kvs.find? (fun kv => decide (kv.1 = k)))

/-- The `for key in self.entries` loop of `Object.__call__`; `valueKeys` is
the local mutable list `value_keys` (initially the dict's keys; a declared
key is removed after its child filter passes).  The `(false, [])` result in
the `none` lookup branch is unreachable: `valueKeys` only ever holds keys of
`kvs`. -/
def objectLoop (ig : Bool) (kvs : List (Str × JSONValue)) :
    List (Str × Filt × Bool) → List Str → Bool × Str
  | [], valueKeys =>
    match valueKeys, ig with
    | [], _ => (true, [])
    | _ :: _, true => (true, [])
    | k0 :: _, false =>
      (false, chars "unsupported key \x27" ++ k0 ++ chars "\x27")
  | (k, f, opt) :: rest, valueKeys =>
    if k ∈ valueKeys then
      match lookupV kvs k with
      | some vv =>
        let p := f vv
        if p.1 then objectLoop ig kvs rest (valueKeys.erase k)
        else (false, k ++ chars ": " ++ p.2)
      | none => (false, [])
    else if opt then objectLoop ig kvs rest valueKeys
    else (false, chars "entry with key \x27" ++ k ++ chars "\x27 required")

/-- `Object.__call__(self, value)` with normalised entries and the
`ignore_more` flag. -/
def objectCall (entries : List (Str × Filt × Bool)) (ig : Bool)
    (v : JSONValue) : Bool × Str :=
  match v with
  | .obj kvs => objectLoop ig kvs entries (kvs.map Prod.fst)
  | _ =>
    (false, chars "expected object, found \x27" ++ pyStr v ++
      chars "\x27 of type " ++ className v)

/-! ## Spec-side model of the Object filter (claim C7) -/

/-- Spec-side per-key processing of C7: for each declared key in order, if
present validate with the child filter (failure yields `key: reason`), if
absent and required fail with the missing-required-key reason; when all
declared keys processed, return the precomputed leftover verdict `fin`. -/
def specLoop (kvs : List (Str × JSONValue)) :
    List (Str × Filt × Bool) → Bool × Str → Bool × Str
  | [], fin => fin
  | (k, f, opt) :: rest, fin =>
    match lookupV kvs k with
    | some vv =>
      let p := f vv
      if p.1 then specLoop kvs rest fin
      else (false, k ++ chars ": " ++ p.2)
    | none =>
      if opt then specLoop kvs rest fin
      else (false, chars "entry with key \x27" ++ k ++ chars "\x27 required")

/-- Spec-side unconsumed keys of C7: the keys of the value that are not
declared, in the value's order. -/
def specLeftover (entries : List (Str × Filt × Bool))
    (kvs : List (Str × JSONValue)) : List Str :=
  (kvs.map Prod.fst).filter
    (fun k => decide (¬ k ∈ entries.map (fun e => e.1)))

/-- Spec-side leftover verdict of C7: succeed when no unconsumed key remains
or extra keys are allowed; otherwise fail naming one unconsumed key. -/
def endVerdict (leftover : List Str) (ig : Bool) : Bool × Str :=
  match leftover, ig with
  | [], _ => (true, [])
  | _ :: _, true => (true, [])
  | k0 :: _, false =>
    (false, chars "unsupported key \x27" ++ k0 ++ chars "\x27")

/-- Spec-side Object filter of C7, assembled from the pieces above;
non-mapping values are rejected. -/
def specObject (entries : List (Str × Filt × Bool)) (ig : Bool)
    (v : JSONValue) : Bool × Str :=
  match v with
  | .obj kvs => specLoop kvs entries (endVerdict (specLeftover entries kvs) ig)
  | _ =>
    (false, chars "expected object, found \x27" ++ pyStr v ++
      chars "\x27 of type " ++ className v)

/-- Spec-side per-entry acceptance condition of C7: a declared key that is
present must satisfy its child filter, a declared key that is absent must be
optional. -/
def entryOK (kvs : List (Str × JSONValue)) (e : Str × Filt × Bool) : Prop :=
  match lookupV kvs e.1 with
  | some vv => (e.2.1 vv).1 = true
  | none => e.2.2 = true

/-! ## Router (`wsgi_tools/routing.py`, class `Router`) -/

/-- A matching dimension: `check` is `Rule.check(environ, value)` (with
`none` modelling an uncaught exception) and `exc` the status code and
message of the `HTTPException` returned by `Rule.get_exception`. -/
structure RuleM (Env Val : Type) : Type where
  check : Env → Val → Option Bool
  exc : Nat × Option Str

/-- One round of the list comprehension in `Router.__call__`: keep the routes
whose `i`-th value passes the rule; `none` when a route tuple is too short
(`IndexError`) or a check raises. -/
def filterRoutes {Env Val : Type} (r : RuleM Env Val) (env : Env) (i : Nat) :
    List (List Val) → Option (List (List Val))
  | [] => some []
  | route :: rest =>
    match route.get? i with
    | none => none
    | some v =>
      match r.check env v with
      | none => none
      | some b =>
        match filterRoutes r env i rest with
        | none => none
        | some tl => some (if b then route :: tl else tl)

/-- The `for i, rule in enumerate(self.rules)` loop of `Router.__call__`,
starting at dimension `i`: filter by each rule in order, raising the rule's
exception as soon as the candidate set empties; when all rules are done
select `routes[0]` (the first surviving route key, whose handler the source
then invokes).  `none` models a non-`HTTPException` error (a raising check,
or `routes[0]` on an initially empty table). -/
def routerLoop {Env Val : Type} (env : Env) :
    List (RuleM Env Val) → Nat → List (List Val) →
    Option (Except (Nat × Option Str) (List Val))
  | [], _, routes =>
    match routes with
    | [] => none
    | route :: _ => some (Except.ok route)
  | rule :: rest, i, routes =>
    match filterRoutes rule env i routes with
    | none => none
    | some survivors =>
      match survivors with
      | [] => some (Except.error rule.exc)
      | x :: xs => routerLoop env rest (i + 1) (x :: xs)

/-- `Router.__call__(self, environ, start_response)` on a route table given
as its insertion-ordered list of route-key tuples. -/
def routerCall {Env Val : Type} (rules : List (RuleM Env Val))
    (routes : List (List Val)) (env : Env) :
    Option (Except (Nat × Option Str) (List Val)) :=
  routerLoop env rules 0 routes

/-- Sequential narrowing by a prefix of the rules in which every intermediate
candidate set is non-empty and every check is defined (used as the
hypothesis of claim C3). -/
def narrowNE {Env Val : Type} (env : Env) :
    List (RuleM Env Val) → Nat → List (List Val) → Option (List (List Val))
  | [], _, routes => some routes
  | rule :: rest, i, routes =>
    match filterRoutes rule env i routes with
    | none => none
    | some [] => none
    | some (x :: xs) => narrowNE env rest (i + 1) (x :: xs)

/-- A single route's fate across all dimensions, in rule order with
short-circuit at the first failing rule (used for claim C8). -/
def passesAll {Env Val : Type} (env : Env) :
    List (RuleM Env Val) → Nat → List Val → Option Bool
  | [], _, _ => some true
  | rule :: rest, i, route =>
    match route.get? i with
    | none => none
    | some v =>
      match rule.check env v with
      | none => none
      | some true => passesAll env rest (i + 1) route
      | some false => some false

/-- The check of one route value by one rule at dimension `i` (helper for
claim C8). -/
def stepCheck {Env Val : Type} (r : RuleM Env Val) (env : Env) (i : Nat)
    (route : List Val) : Option Bool :=
  match route.get? i with
  | none => none
  | some v => r.check env v

/-! ### The concrete rule instances -/

/-- The parts of a WSGI environ used by the three rules. -/
structure Environ : Type where
  path_info : Str
  request_method : Str
  content_type : Option Str

/-- A route-tuple entry: the arg of a `PathRule` (a pattern), of the
`MethodRule` (a method string) or of the `ContentTypeRule` (a content-type
string or `None`).  The route tables of this module are used with the entry
kind matching its dimension's rule, as in the module's documented usage;
cross-kind entries are not modelled (`check` is `none` on them). -/
inductive RouteVal : Type where
  | pathA : List (PatElem JSONValue) → RouteVal
  | methodA : Str → RouteVal
  | ctypeA : Option Str → RouteVal

/-- `PathRule` as a router dimension: `check` via `pathRuleCheck` (the field
`self.args` before the call is irrelevant to the returned boolean),
exception `HTTPException(404, message='Path not found')`. -/
def pathRuleM : RuleM Environ RouteVal where
  check := fun env v =>
    match v with
    | .pathA p =>
      Option.map (fun pr => pr.1) (pathRuleCheck ([] : List JSONValue) p env.path_info)
    | _ => none
  exc := (404, some (chars "Path not found"))

/-- `MethodRule` as a router dimension: exact string equality, exception
`HTTPException(405)` (no message). -/
def methodRuleM : RuleM Environ RouteVal where
  check := fun env v =>
    match v with
    | .methodA m => some (decide (m = env.request_method))
    | _ => none
  exc := (405, none)

/-- `ContentTypeRule` as a router dimension, exception
`HTTPException(415, message='Unsupported Content-Type')`. -/
def contentTypeRuleM : RuleM Environ RouteVal where
  check := fun env v =>
    match v with
    | .ctypeA c => contentTypeCheck env.content_type c
    | _ => none
  exc := (415, some (chars "Unsupported Content-Type"))

/-! ## FilteredJSONParser (`wsgi_tools/filtered_parser.py`) -/

/-- `FilteredJSONParser.__call__`.  `ct` is the request's declared
content-type (`none` when the `CONTENT_TYPE` key is absent), `parsed` the
result of `json.loads` on the body bytes (`none` models `JSONDecodeError`),
`filter` the configured filter.  `Except.ok ()` models forwarding to the
wrapped app; `Except.error (code, msg)` models `raise HTTPException(...)`.
The outer `none` models the `IndexError` of `split('/')[1]` on a
content-type without `'/'`; reading the body bytes is abstracted into
`parsed`. -/
def filteredJSONParserCall (filter : Filt) (ct : Option Str)
    (parsed : Option JSONValue) : Option (Except (Nat × Option Str) Unit) :=
  match ct with
  | none => some (Except.error (400, some (chars "Body required")))
  | some ctv =>
    match splitOnChar '/' ctv with
    | _ :: second :: _ =>
      if chars "json" ∈ splitOnChar '+' second then
        match parsed with
        | none => some (Except.error (422, some (chars "Invalid JSON")))
        | some j =>
          let p := filter j
          if p.1 then some (Except.ok ())
          else some (Except.error (400, some p.2))
      else
        some (Except.error (415, some (chars "Only json content is allowed.")))
    | _ => none

/-- The declared content-type announces JSON: `'json' in
environ['CONTENT_TYPE'].split('/')[1].split('+')` evaluates without error to
`True`. -/
def JsonDeclared (ctv : Str) : Prop :=
  ∃ a second rest2, splitOnChar '/' ctv = a :: second :: rest2 ∧
    chars "json" ∈ splitOnChar '+' second

/-! ## Filter instances as stateful objects (claim C9) -/

/-- The fields of a `Number` instance. -/
structure NumberRec : Type where
  min : Option Rat
  max : Option Rat
  require_int : Bool

/-- The fields of an `Array` instance (the child filter). -/
structure ArrayRec : Type where
  filter : Filt

/-- The fields of an `Options` instance (the alternative filters). -/
structure OptionsRec : Type where
  options : List Filt

/-- The fields of an `Object` instance (normalised entries and the
`ignore_more` flag). -/
structure ObjectRec : Type where
  entries : List (Str × Filt × Bool)
  ignore_more : Bool

/-- A built-in filter instance: its identity is its (constructor-set)
fields; `Boolean`, `String` and `Null` are plain functions and carry no
fields. -/
inductive FilterInst : Type where
  | num : NumberRec → FilterInst
  | boolI : FilterInst
  | strI : FilterInst
  | nullI : FilterInst
  | arrI : ArrayRec → FilterInst
  | optsI : OptionsRec → FilterInst
  | objI : ObjectRec → FilterInst

/-- State-threaded `__call__` of a filter instance: the result pair together
with the instance's fields after the call.  Every `__call__` in the source
only reads `self` (local variables aside, it contains no assignment to any
`self` field), so the fields are returned as they came in. -/
def instCall : FilterInst → JSONValue → (Bool × Str) × FilterInst
  | .num r, v => (numberCall r.min r.max r.require_int v, .num r)
  | .boolI, v => (booleanCall v, .boolI)
  | .strI, v => (stringCall v, .strI)
  | .nullI, v => (nullCall v, .nullI)
  | .arrI r, v => (arrayCall r.filter v, .arrI r)
  | .optsI r, v => (optionsCall r.options v, .optsI r)
  | .objI r, v => (objectCall r.entries r.ignore_more v, .objI r)

/-- One evaluation event against a store of shared filter instances:
instance `ev.1` is called on value `ev.2` and its post-call state written
back; events addressing no instance are ignored. -/
def storeStep (store : List FilterInst) (ev : Nat × JSONValue) :
    List FilterInst :=
  match store.get? ev.1 with
  | some inst => store.set ev.1 (instCall inst ev.2).2
  | none => store

/-- Run a history of evaluation events over a store of filter instances. -/
def runFilterSeq (store : List FilterInst) (evs : List (Nat × JSONValue)) :
    List FilterInst :=
  evs.foldl storeStep store

/-- The `(accepted, reason)` pair produced by evaluating instance `i` of the
store on `v`. -/
def observe (store : List FilterInst) (i : Nat) (v : JSONValue) :
    Option (Bool × Str) :=
  Option.map (fun inst => (instCall inst v).1) (store.get? i)

/-! ## Concrete instances used by the witnesses -/

/-- Decimal digit value of a character, `none` for a non-digit. -/
def digitVal (c : Char) : Option Nat :=
  if '0' ≤ c ∧ c ≤ '9' then some (c.toNat - 48) else none

/-- Accumulating decimal parser. -/
def decNatAux : Str → Nat → Option Nat
  | [], acc => some acc
  | c :: t, acc =>
    match digitVal c with
    | some d => decNatAux t (acc * 10 + d)
    | none => none

/-- A converter in the style of Python `int`, restricted to non-empty strings
of decimal digits (`none` models `ValueError`). -/
def decNat? : Str → Option Nat
  | [] => none
  | c :: t => decNatAux (c :: t) 0

/-- The integer converter used in the path-pattern witnesses. -/
def intConv (st : Str) : Option Int :=
  Option.map (fun n => (n : Int)) (decNat? st)

/-- Witness pattern for C2: `('/id/', int)`. -/
def pat2w : List (PatElem Int) :=
  [PatElem.lit (chars "/id/"), PatElem.conv intConv]

/-- A converter returning its input unchanged (Python `str`). -/
def echoConv (st : Str) : Option Str := some st

/-- Witness pattern for C4: `('/a', str)`. -/
def pat4w : List (PatElem Str) :=
  [PatElem.lit (chars "/a"), PatElem.conv echoConv]

/-- Witness environ for C3: path matches, method and content-type do not. -/
def env3 : Environ :=
  { path_info := chars "/x", request_method := chars "GET",
    content_type := some (chars "application/xml") }

/-- Witness route for C3: `(('/x',), 'POST', 'json')`. -/
def route3 : List RouteVal :=
  [RouteVal.pathA [PatElem.lit (chars "/x")],
   RouteVal.methodA (chars "POST"),
   RouteVal.ctypeA (some (chars "json"))]

/-- Witness environ for C8. -/
def env8 : Environ :=
  { path_info := chars "/x", request_method := chars "GET",
    content_type := none }

/-- First-registered witness route for C8. -/
def route8a : List RouteVal :=
  [RouteVal.pathA [PatElem.lit (chars "/x")],
   RouteVal.methodA (chars "GET"),
   RouteVal.ctypeA none]

/-- Second-registered witness route for C8 (also survives both dimensions). -/
def route8b : List RouteVal :=
  [RouteVal.pathA [PatElem.lit (chars "/x")],
   RouteVal.methodA (chars "GET"),
   RouteVal.ctypeA (some (chars "json"))]

/-- Witness declared entries for C7:
`{'id': (Number(min=0, require_int=True), False), 'description': (String, True)}`. -/
def entries7 : List (Str × Filt × Bool) :=
  [(chars "id", fun v => numberCall (some 0) none true v, false),
   (chars "description", stringCall, true)]

/-- Witness value for C7: `{"id": 5, "extra": 1}`. -/
def value7 : List (Str × JSONValue) :=
  [(chars "id", JSONValue.int 5), (chars "extra", JSONValue.int 1)]

/-! # Theorems -/

/-! ## Shared helper lemmas -/

theorem append_ne_nil_left {l r : Str} (h : l ≠ []) : l ++ r ≠ [] := by
  intro hc
  exact h (List.append_eq_nil.mp hc).1

theorem append3_ne_nil (a b c : Str) (hb : b ≠ []) : a ++ b ++ c ≠ [] := by
  intro hc
  have h1 := (List.append_eq_nil.mp hc).1
  exact hb (List.append_eq_nil.mp h1).2

theorem splitOnChar_of_not_mem {c : Char} : ∀ {l : Str}, c ∉ l →
    splitOnChar c l = [l] := by
  intro l
  induction l with
  | nil => intro _; rfl
  | cons x xs ih =>
    intro h
    have hx : ¬ x = c := fun hxc => h (hxc ▸ List.mem_cons_self x xs)
    have hxs : c ∉ xs := fun hm => h (List.mem_cons_of_mem x hm)
    simp only [splitOnChar, if_neg hx, ih hxs]

theorem takeWhile_ne_of_not_mem {c : Char} : ∀ {l : Str}, c ∉ l →
    l.takeWhile (fun x => ¬ x = c) = l := by
  intro l
  induction l with
  | nil => intro _; rfl
  | cons x xs ih =>
    intro h
    have hx : ¬ x = c := fun hxc => h (hxc ▸ List.mem_cons_self x xs)
    have hxs : c ∉ xs := fun hm => h (List.mem_cons_of_mem x hm)
    simp [List.takeWhile_cons, hx, ih hxs]
    exact fun y hy hyc => hxs (hyc ▸ hy)

theorem splitOnChar_of_mem {c : Char} : ∀ {l : Str}, c ∈ l →
    splitOnChar c l =
      l.takeWhile (fun x => ¬ x = c) ::
        splitOnChar c ((l.dropWhile (fun x => ¬ x = c)).tail) := by
  intro l
  induction l with
  | nil => intro h; cases h
  | cons x xs ih =>
    intro h
    by_cases hx : x = c
    · subst hx
      simp [splitOnChar, List.takeWhile_cons, List.dropWhile_cons]
    · have hxs : c ∈ xs := by
        cases h with
        | head => exact absurd rfl hx
        | tail _ hm => exact hm
      simp [splitOnChar, if_neg hx, ih hxs, List.takeWhile_cons, hx,
        List.dropWhile_cons]

/-! ## C10: ContentTypeRule is not total on slash-free content-types -/

/-- C10 (confirmed): for every declared content-type without `'/'` and every
expected string without `'/'`, `ContentTypeRule.check` raises
(`split('/')[1]` has no second component) rather than returning a boolean. -/
theorem contentTypeCheck_slashfree_raises (ct v : Str)
    (hct : '/' ∉ ct) (hv : '/' ∉ v) :
    contentTypeCheck (some ct) (some v) = none := by
  simp only [contentTypeCheck, if_neg hv, splitOnChar_of_not_mem hct]

/-- Witness for C10 at the content-type `'text'` and expected value
`'json'`. -/
theorem contentTypeCheck_slashfree_raises_witness :
    '/' ∉ chars "text" ∧ '/' ∉ chars "json" ∧
      contentTypeCheck (some (chars "text")) (some (chars "json")) = none :=
  ⟨by decide, by decide,
    contentTypeCheck_slashfree_raises (chars "text") (chars "json")
      (by decide) (by decide)⟩

/-! ## C5: ContentTypeRule semantics -/

/-- C5 (counterexample): for the declared content-type `'x/c/y'` and the
expected token `'c'`, the check returns `True`, yet `'c'` does not appear
among the `'+'`-delimited components of the part of the content-type after
the `'/'` (that part is `'c/y'`, whose only component is `'c/y'`).  The code
instead consults only the text between the first and second `'/'`. -/
theorem contentTypeCheck_claim_false :
    contentTypeCheck (some (chars "x/c/y")) (some (chars "c")) = some true ∧
      chars "c" ∉ splitOnChar '+' (afterFirstSlash (chars "x/c/y")) := by
  constructor
  · decide
  · decide

theorem splitOnChar_head (c : Char) (l : Str) :
    ∃ t, splitOnChar c l = l.takeWhile (fun x => ¬ x = c) :: t := by
  by_cases h : c ∈ l
  · exact ⟨_, splitOnChar_of_mem h⟩
  · exact ⟨[], by rw [splitOnChar_of_not_mem h, takeWhile_ne_of_not_mem h]⟩

/-- C5 (amended): expected `None` accepts exactly the requests without a
content-type; an expected string with `'/'` requires exact equality; an
expected token without `'/'` is matched against the `'+'`-delimited
components of the second `'/'`-separated segment of the content-type (the
text between the first `'/'` and the next `'/'` or the end) — not of the
whole part after the first `'/'` — and when the content-type itself has no
`'/'` the check raises instead of returning. -/
theorem contentTypeCheck_amended (ct : Option Str) (v ctv : Str) :
    (contentTypeCheck ct none = some ct.isNone) ∧
    ('/' ∈ v → contentTypeCheck ct (some v) = some (decide (ct = some v))) ∧
    ('/' ∉ v → contentTypeCheck none (some v) = some false) ∧
    ('/' ∉ v → '/' ∈ ctv → contentTypeCheck (some ctv) (some v) =
      some (decide (v ∈ splitOnChar '+' (specSecondSeg ctv)))) ∧
    ('/' ∉ v → '/' ∉ ctv → contentTypeCheck (some ctv) (some v) = none) := by
  refine ⟨?_, ?_, ?_, ?_, ?_⟩
  · cases ct <;> rfl
  · intro h
    cases ct with
    | none => simp [contentTypeCheck]
    | some c2 =>
      simp only [contentTypeCheck, if_pos h]
      congr 1
      rw [decide_eq_decide]
      exact ⟨fun hh => by rw [hh], fun hh => (Option.some.inj hh).symm⟩
  · intro _; rfl
  · intro hv hc
    simp only [contentTypeCheck, if_neg hv]
    rw [splitOnChar_of_mem hc]
    obtain ⟨t, ht⟩ :=
      splitOnChar_head '/' ((ctv.dropWhile (fun x => ¬ x = '/')).tail)
    rw [ht]
    rfl
  · intro hv hc
    simp only [contentTypeCheck, if_neg hv, splitOnChar_of_not_mem hc]

/-- Witness for C5 at the claim's own examples: the bare token `'json'`
(no `'/'`) against `'application/vnd.api+json'` (which has a `'/'`), as
settled by the amended theorem, evaluates to acceptance. -/
theorem contentTypeCheck_amended_witness :
    '/' ∉ chars "json" ∧ '/' ∈ chars "application/vnd.api+json" ∧
      contentTypeCheck (some (chars "application/vnd.api+json"))
          (some (chars "json")) =
        some (decide (chars "json" ∈ splitOnChar '+'
          (specSecondSeg (chars "application/vnd.api+json")))) ∧
      contentTypeCheck (some (chars "application/vnd.api+json"))
          (some (chars "json")) = some true :=
  ⟨by decide, by decide,
    (contentTypeCheck_amended (some (chars "application/vnd.api+json"))
        (chars "json") (chars "application/vnd.api+json")).2.2.2.1
      (by decide) (by decide),
    by decide⟩

/-! ## C6: status code of malformed JSON -/

/-- C6 (counterexample): a body declared as JSON whose bytes fail to parse
raises status 422, not 400. -/
theorem malformedJSON_not_400 :
    filteredJSONParserCall (fun _ => (true, []))
        (some (chars "application/json")) none =
      some (Except.error (422, some (chars "Invalid JSON"))) ∧
      (422 : Nat) ≠ 400 :=
  ⟨rfl, by decide⟩

/-- C6 (amended): when the declared content-type announces JSON and the body
bytes fail to parse, the raised `HTTPException` carries status code 422 and
the message `'Invalid JSON'`. -/
theorem malformedJSON_status (filter : Filt) (ctv : Str)
    (h : JsonDeclared ctv) :
    filteredJSONParserCall filter (some ctv) none =
      some (Except.error (422, some (chars "Invalid JSON"))) := by
  obtain ⟨a, second, rest2, hsplit, hmem⟩ := h
  simp only [filteredJSONParserCall, hsplit, if_pos hmem]

/-- Witness for C6's amended theorem at content-type
`'application/json'`. -/
theorem malformedJSON_status_witness :
    JsonDeclared (chars "application/json") ∧
      filteredJSONParserCall stringCall (some (chars "application/json"))
          none =
        some (Except.error (422, some (chars "Invalid JSON"))) := by
  have hd : JsonDeclared (chars "application/json") :=
    ⟨chars "application", chars "json", [], by decide, by decide⟩
  exact ⟨hd, malformedJSON_status stringCall (chars "application/json") hd⟩

/-! ## C1: reason empty iff accepted -/

/-- C1 (counterexample): the `Boolean` filter accepts `true` yet returns the
non-empty reason `"expected boolean, found 'True' of type bool"`. -/
theorem boolean_reason_nonempty_on_success :
    (booleanCall (JSONValue.bool true)).1 = true ∧
      (booleanCall (JSONValue.bool true)).2 ≠ [] := by
  exact ⟨by decide, by decide⟩

theorem append_ne_nil_right {l r : Str} (h : r ≠ []) : l ++ r ≠ [] := by
  intro hc
  exact h (List.append_eq_nil.mp hc).2

theorem msg_ne_nil4 (a b c d : Str) (h : a ≠ []) : a ++ b ++ c ++ d ≠ [] := by
  intro hc
  have h1 := (List.append_eq_nil.mp hc).1
  have h2 := (List.append_eq_nil.mp h1).1
  exact h (List.append_eq_nil.mp h2).1

theorem lookupV_ne_none_of_mem :
    ∀ {kvs : List (Str × JSONValue)} {k : Str},
      k ∈ kvs.map Prod.fst → lookupV kvs k ≠ none := by
  intro kvs
  induction kvs with
  | nil => intro k h; cases h
  | cons kv rest ih =>
    intro k h
    unfold lookupV
    by_cases hk : kv.1 = k
    · rw [List.find?_cons_of_pos _ (by simp [hk])]
      simp
    · have hr : k ∈ rest.map Prod.fst := by
        simp only [List.map_cons, List.mem_cons] at h
        rcases h with h | h
        · exact absurd h.symm hk
        · exact h
      rw [List.find?_cons_of_neg _ (by simp [hk])]
      have := ih hr
      unfold lookupV at this
      exact this

theorem arrayLoop_empty_iff (f : Filt) :
    ∀ (l : List JSONValue) (i : Nat),
      ((arrayLoop f l i).2 = [] ↔ (arrayLoop f l i).1 = true) := by
  intro l
  induction l with
  | nil => intro i; exact ⟨fun _ => rfl, fun _ => rfl⟩
  | cons e rest ih =>
    intro i
    by_cases hc : (f e).1 = true
    · have hstep : arrayLoop f (e :: rest) i = arrayLoop f rest (i + 1) := by
        simp [arrayLoop, hc]
      rw [hstep]
      exact ih (i + 1)
    · have hstep : arrayLoop f (e :: rest) i =
          (false, chars (toString i) ++ chars ": " ++ (f e).2) := by
        simp [arrayLoop, hc]
      rw [hstep]
      exact ⟨fun h => absurd h (append3_ne_nil _ _ _ (by decide)),
        fun h => absurd h Bool.false_ne_true⟩

theorem optionsLoop_empty_iff (v : JSONValue) :
    ∀ (os : List Filt) (acc : List Str),
      ((optionsLoop v os acc).2 = [] ↔ (optionsLoop v os acc).1 = true) := by
  intro os
  induction os with
  | nil =>
    intro acc
    exact ⟨fun h => absurd h (append_ne_nil_right (by decide)),
      fun h => absurd h Bool.false_ne_true⟩
  | cons f2 rest ih =>
    intro acc
    by_cases hc : (f2 v).1 = true
    · have hstep : optionsLoop v (f2 :: rest) acc = (true, []) := by
        simp [optionsLoop, hc]
      rw [hstep]
      exact ⟨fun _ => rfl, fun _ => rfl⟩
    · have hstep : optionsLoop v (f2 :: rest) acc =
          optionsLoop v rest (acc ++ [(f2 v).2]) := by
        simp [optionsLoop, hc]
      rw [hstep]
      exact ih (acc ++ [(f2 v).2])

theorem objectLoop_empty_iff (ig : Bool) (kvs : List (Str × JSONValue)) :
    ∀ (es : List (Str × Filt × Bool)) (vk : List Str),
      (∀ k ∈ vk, lookupV kvs k ≠ none) →
      ((objectLoop ig kvs es vk).2 = [] ↔
        (objectLoop ig kvs es vk).1 = true) := by
  intro es
  induction es with
  | nil =>
    intro vk _
    cases vk with
    | nil => cases ig <;> exact ⟨fun _ => rfl, fun _ => rfl⟩
    | cons k0 t =>
      cases ig with
      | true => exact ⟨fun _ => rfl, fun _ => rfl⟩
      | false =>
        exact ⟨fun h =>
          absurd h (append_ne_nil_left (append_ne_nil_left (by decide))),
          fun h => absurd h Bool.false_ne_true⟩
  | cons e rest ih =>
    obtain ⟨k, f, opt⟩ := e
    intro vk hvk
    by_cases hk : k ∈ vk
    · cases hl : lookupV kvs k with
      | none => exact absurd hl (hvk k hk)
      | some vv =>
        by_cases hc : (f vv).1 = true
        · have hstep : objectLoop ig kvs ((k, f, opt) :: rest) vk =
              objectLoop ig kvs rest (vk.erase k) := by
            simp [objectLoop, hk, hl, hc]
          rw [hstep]
          exact ih (vk.erase k) (fun q hq => hvk q (List.mem_of_mem_erase hq))
        · have hstep : objectLoop ig kvs ((k, f, opt) :: rest) vk =
              (false, k ++ chars ": " ++ (f vv).2) := by
            simp [objectLoop, hk, hl, hc]
          rw [hstep]
          exact ⟨fun h => absurd h (append3_ne_nil _ _ _ (by decide)),
            fun h => absurd h Bool.false_ne_true⟩
    · by_cases ho : opt = true
      · have hstep : objectLoop ig kvs ((k, f, opt) :: rest) vk =
            objectLoop ig kvs rest vk := by
          simp [objectLoop, hk, ho]
        rw [hstep]
        exact ih vk hvk
      · have hstep : objectLoop ig kvs ((k, f, opt) :: rest) vk =
            (false, chars "entry with key \x27" ++ k ++
              chars "\x27 required") := by
          simp [objectLoop, hk, ho]
        rw [hstep]
        exact ⟨fun h =>
          absurd h (append_ne_nil_left (append_ne_nil_left (by decide))),
          fun h => absurd h Bool.false_ne_true⟩

/-- C1 (amended): `Number`, `Array`, `Options` and `Object` satisfy the
contract — the reason string is empty exactly when the value is accepted,
for arbitrary child filters — while `Boolean`, `String` and `Null` return
the correct acceptance flag but pair it unconditionally with the (non-empty)
type-mismatch message, so their reason is non-empty even on accepted
values. -/
theorem filter_reason_contract :
    (∀ (mn mx : Option Rat) (ri : Bool) (v : JSONValue),
      ((numberCall mn mx ri v).2 = [] ↔ (numberCall mn mx ri v).1 = true)) ∧
    (∀ (f : Filt) (v : JSONValue),
      ((arrayCall f v).2 = [] ↔ (arrayCall f v).1 = true)) ∧
    (∀ (os : List Filt) (v : JSONValue),
      ((optionsCall os v).2 = [] ↔ (optionsCall os v).1 = true)) ∧
    (∀ (entries : List (Str × Filt × Bool)) (ig : Bool) (v : JSONValue),
      ((objectCall entries ig v).2 = [] ↔
        (objectCall entries ig v).1 = true)) ∧
    (∀ v : JSONValue, (booleanCall v).1 = isBool v ∧ (booleanCall v).2 ≠ []) ∧
    (∀ v : JSONValue, (stringCall v).1 = isStr v ∧ (stringCall v).2 ≠ []) ∧
    (∀ v : JSONValue, (nullCall v).1 = isNull v ∧ (nullCall v).2 ≠ []) := by
  refine ⟨?_, ?_, ?_, ?_, ?_, ?_, ?_⟩
  · intro mn mx ri v
    unfold numberCall
    split_ifs <;>
      first
      | exact ⟨fun _ => rfl, fun _ => rfl⟩
      | exact ⟨fun h => absurd h (msg_ne_nil4 _ _ _ _ (by decide)),
          fun h => h.elim⟩
  · intro f v
    cases v
    case arr l => exact arrayLoop_empty_iff f l 0
    all_goals
      exact ⟨fun h => absurd h (msg_ne_nil4 _ _ _ _ (by decide)),
        fun h => absurd h Bool.false_ne_true⟩
  · intro os v
    exact optionsLoop_empty_iff v os []
  · intro entries ig v
    cases v
    case obj kvs =>
      exact objectLoop_empty_iff ig kvs entries (kvs.map Prod.fst)
        (fun k hk => lookupV_ne_none_of_mem hk)
    all_goals
      exact ⟨fun h => absurd h (msg_ne_nil4 _ _ _ _ (by decide)),
        fun h => absurd h Bool.false_ne_true⟩
  · exact fun v => ⟨rfl, msg_ne_nil4 _ _ _ _ (by decide)⟩
  · exact fun v => ⟨rfl, msg_ne_nil4 _ _ _ _ (by decide)⟩
  · exact fun v => ⟨rfl, msg_ne_nil4 _ _ _ _ (by decide)⟩

/-- Witness for C1's amended theorem at a concrete value. -/
theorem filter_reason_contract_witness :
    (booleanCall (JSONValue.int 3)).1 = isBool (JSONValue.int 3) ∧
      (booleanCall (JSONValue.int 3)).2 ≠ [] :=
  filter_reason_contract.2.2.2.2.1 (JSONValue.int 3)

/-! ## C9: purity of the filters -/

theorem instCall_state (inst : FilterInst) (v : JSONValue) :
    (instCall inst v).2 = inst := by
  cases inst <;> rfl

theorem set_get_eq {α : Type} :
    ∀ (l : List α) (i : Nat) (a : α), l.get? i = some a → l.set i a = l := by
  intro l
  induction l with
  | nil => intro i a h; cases h
  | cons x t ih =>
    intro i a h
    cases i with
    | zero =>
      simp only [List.get?] at h
      simp [List.set, Option.some.inj h]
    | succ n =>
      simp only [List.get?] at h
      simp [List.set, ih n a h]

theorem storeStep_eq (store : List FilterInst) (ev : Nat × JSONValue) :
    storeStep store ev = store := by
  unfold storeStep
  cases h : store.get? ev.1 with
  | none => rfl
  | some inst =>
    show store.set ev.1 (instCall inst ev.2).2 = store
    rw [instCall_state]
    exact set_get_eq store ev.1 inst h

theorem runFilterSeq_eq (store : List FilterInst)
    (evs : List (Nat × JSONValue)) : runFilterSeq store evs = store := by
  induction evs with
  | nil => rfl
  | cons e t ih =>
    simp only [runFilterSeq, List.foldl_cons, storeStep_eq]
    exact ih

/-- C9 (confirmed): filter instances are never mutated by evaluation, so the
`(accepted, reason)` pair observed for instance `i` on value `v` is the same
no matter which evaluations of any instances in the shared store happened
before or between. -/
theorem filters_pure (store : List FilterInst) (evs : List (Nat × JSONValue))
    (i : Nat) (v : JSONValue) :
    runFilterSeq store evs = store ∧
      observe (runFilterSeq store evs) i v = observe store i v :=
  ⟨runFilterSeq_eq store evs, by rw [runFilterSeq_eq]⟩

/-! ## C4: the `args` field of PathRule -/

/-- C4 (counterexample): a successful `PathRule.check` overwrites the shared
instance's `args` field — here the field changes from `[]` to `['/x']`. -/
theorem pathRule_mutates_args :
    pathRuleCheck ([] : List Str) pat4w (chars "/a/x") =
        some (true, [chars "/x"]) ∧
      [chars "/x"] ≠ ([] : List Str) :=
  ⟨rfl, by decide⟩

/-- C4 (amended): a failing `PathRule.check` leaves the `args` field
unchanged, and the field value written by a successful check is determined
by the pattern and the path alone (the source stores the freshly captured
values, independent of the field's prior value). -/
theorem pathRule_args_field {α : Type} (selfArgs selfArgs2 : List α)
    (pattern : List (PatElem α)) (path : Str) :
    (∀ a, pathRuleCheck selfArgs pattern path = some (false, a) →
      a = selfArgs) ∧
    (∀ a, pathRuleCheck selfArgs pattern path = some (true, a) →
      pathRuleCheck selfArgs2 pattern path = some (true, a)) := by
  unfold pathRuleCheck
  cases h : pathAux true pattern path ([] : List α) with
  | none =>
    refine ⟨fun a ha => ?_, fun a ha => ?_⟩
    · have ha2 : (none : Option (Bool × List α)) = some (false, a) := ha
      cases ha2
    · have ha2 : (none : Option (Bool × List α)) = some (true, a) := ha
      cases ha2
  | some o =>
    cases o with
    | none =>
      refine ⟨fun a ha => ?_, fun a ha => ?_⟩
      · exact ((Prod.mk.inj (Option.some.inj ha)).2).symm
      · cases (Prod.mk.inj (Option.some.inj ha)).1
    | some args =>
      refine ⟨fun a ha => ?_, fun a ha => ?_⟩
      · cases (Prod.mk.inj (Option.some.inj ha)).1
      · rw [← (Prod.mk.inj (Option.some.inj ha)).2]

/-- Witness for C4's amended theorem: the success result on the witness
pattern is the same whatever the prior field value. -/
theorem pathRule_args_field_witness :
    pathRuleCheck ([] : List Str) pat4w (chars "/a/x") =
        some (true, [chars "/x"]) ∧
      pathRuleCheck [chars "stale"] pat4w (chars "/a/x") =
        some (true, [chars "/x"]) :=
  ⟨rfl,
    (pathRule_args_field ([] : List Str) [chars "stale"] pat4w
        (chars "/a/x")).2 [chars "/x"] rfl⟩

/-! ## C3: first-failing-dimension wins -/

/-- C3 (confirmed): if narrowing by the rules `rules1` (in configured order)
keeps every intermediate candidate set non-empty and the next rule `r`
empties it, the router raises `r`'s exception — whatever rules follow `r`
(they are never evaluated, so the result does not depend on them). -/
theorem router_first_failing_dimension {Env Val : Type} (env : Env) :
    ∀ (rules1 : List (RuleM Env Val)) (i : Nat) (routes S : List (List Val))
      (r : RuleM Env Val),
      narrowNE env rules1 i routes = some S →
      filterRoutes r env (i + rules1.length) S = some [] →
      ∀ rest, routerLoop env (rules1 ++ r :: rest) i routes =
        some (Except.error r.exc) := by
  intro rules1
  induction rules1 with
  | nil =>
    intro i routes S r h1 h2 rest
    have hS : routes = S := by simpa [narrowNE] using h1
    subst hS
    simp only [List.nil_append, routerLoop]
    have h2x : filterRoutes r env i routes = some [] := by
      simpa using h2
    rw [h2x]
  | cons rule rtl ih =>
    intro i routes S r h1 h2 rest
    cases hf : filterRoutes rule env i routes with
    | none => rw [narrowNE, hf] at h1; cases h1
    | some survivors =>
      cases survivors with
      | nil => rw [narrowNE, hf] at h1; cases h1
      | cons x xs =>
        have h1x : narrowNE env rtl (i + 1) (x :: xs) = some S := by
          rw [narrowNE, hf] at h1
          exact h1
        have h2x : filterRoutes r env (i + 1 + rtl.length) S = some [] := by
          have harith : i + 1 + rtl.length = i + (rule :: rtl).length := by
            simp [List.length_cons]
            omega
          rw [harith]
          exact h2
        simp only [List.cons_append, routerLoop, hf]
        exact ih (i + 1) (x :: xs) S r h1x h2x rest

/-- Witness for C3 at the claim's own scenario: dimensions
`[Path, Method, ContentType]`, a request whose path matches but whose method
and content-type both mismatch; the router raises the `MethodRule` 405, not
the 415, although the content-type check alone would also have failed. -/
theorem router_first_failing_dimension_witness :
    narrowNE env3 [pathRuleM] 0 [route3] = some [route3] ∧
      filterRoutes methodRuleM env3 (0 + [pathRuleM].length) [route3] =
        some [] ∧
      contentTypeCheck env3.content_type (some (chars "json")) = some false ∧
      routerCall [pathRuleM, methodRuleM, contentTypeRuleM] [route3] env3 =
        some (Except.error (405, none)) :=
  ⟨rfl, rfl, rfl,
    router_first_failing_dimension env3 [pathRuleM] 0 [route3] [route3]
      methodRuleM rfl rfl [contentTypeRuleM]⟩

/-! ## C8: deterministic first-registered-wins selection -/

theorem passesAll_cons_true {Env Val : Type} (env : Env)
    (rule : RuleM Env Val) (rtl : List (RuleM Env Val)) (i : Nat)
    (q : List Val) (h : stepCheck rule env i q = some true) :
    passesAll env (rule :: rtl) i q = passesAll env rtl (i + 1) q := by
  unfold stepCheck at h
  cases hg : q.get? i with
  | none => rw [hg] at h; cases h
  | some v =>
    rw [hg] at h
    have h2 : rule.check env v = some true := h
    simp only [passesAll, hg, h2]

theorem passesAll_cons_false {Env Val : Type} (env : Env)
    (rule : RuleM Env Val) (rtl : List (RuleM Env Val)) (i : Nat)
    (q : List Val) (h : stepCheck rule env i q = some false) :
    passesAll env (rule :: rtl) i q = some false := by
  unfold stepCheck at h
  cases hg : q.get? i with
  | none => rw [hg] at h; cases h
  | some v =>
    rw [hg] at h
    have h2 : rule.check env v = some false := h
    simp only [passesAll, hg, h2]

theorem filterRoutes_keeps {Env Val : Type} (rule : RuleM Env Val) (env : Env)
    (i : Nat) :
    ∀ (routes survivors : List (List Val)),
      filterRoutes rule env i routes = some survivors →
      ∀ (pre : List (List Val)) (r : List Val) (suf : List (List Val)),
        survivors = pre ++ r :: suf →
        ∃ A B, routes = A ++ r :: B ∧ stepCheck rule env i r = some true ∧
          ∀ q ∈ A, stepCheck rule env i q = some false ∨
            (stepCheck rule env i q = some true ∧ q ∈ pre) := by
  intro routes
  induction routes with
  | nil =>
    intro survivors h pre r suf hs
    have hsv : survivors = [] := by simpa [filterRoutes] using h.symm
    subst hsv
    exact absurd hs (by simp)
  | cons q qs ih =>
    intro survivors h pre r suf hs
    cases hq : q.get? i with
    | none =>
      simp only [filterRoutes, hq] at h
      cases h
    | some vq =>
      cases hc : rule.check env vq with
      | none =>
        simp only [filterRoutes, hq, hc] at h
        cases h
      | some b =>
        cases hrest : filterRoutes rule env i qs with
        | none =>
          simp only [filterRoutes, hq, hc, hrest] at h
          cases h
        | some tl =>
          have hsurv : survivors = if b then q :: tl else tl := by
            simp only [filterRoutes, hq, hc, hrest] at h
            exact (Option.some.inj h).symm
          cases b with
          | false =>
            have htl : tl = pre ++ r :: suf := by
              rw [← hs]
              simpa using hsurv.symm
            obtain ⟨A, B, hAB, hr, hA⟩ := ih tl hrest pre r suf htl
            refine ⟨q :: A, B, by rw [List.cons_append, ← hAB], hr, ?_⟩
            intro p hp
            rcases List.mem_cons.mp hp with hp | hp
            · left
              subst hp
              unfold stepCheck
              rw [hq]
              exact hc
            · exact hA p hp
          | true =>
            have hqtl : q :: tl = pre ++ r :: suf := by
              rw [← hs]
              simpa using hsurv.symm
            cases pre with
            | nil =>
              simp only [List.nil_append] at hqtl
              have hr0 : q = r := (List.cons.inj hqtl).1
              refine ⟨[], qs, by rw [List.nil_append, ← hr0], ?_, ?_⟩
              · unfold stepCheck
                rw [← hr0, hq]
                exact hc
              · intro p hp
                exact absurd hp (List.not_mem_nil p)
            | cons p0 pt =>
              simp only [List.cons_append] at hqtl
              have hq0 : q = p0 := (List.cons.inj hqtl).1
              have htl : tl = pt ++ r :: suf := (List.cons.inj hqtl).2
              obtain ⟨A, B, hAB, hr, hA⟩ := ih tl hrest pt r suf htl
              refine ⟨q :: A, B, by rw [List.cons_append, ← hAB], hr, ?_⟩
              intro p hp
              rcases List.mem_cons.mp hp with hp | hp
              · right
                subst hp
                constructor
                · unfold stepCheck
                  rw [hq]
                  exact hc
                · rw [hq0]
                  exact List.mem_cons_self p0 pt
              · rcases hA p hp with hf2 | ⟨ht2, hm2⟩
                · left; exact hf2
                · right; exact ⟨ht2, List.mem_cons_of_mem p0 hm2⟩

/-- C8 (confirmed): when the router selects a route (all dimensions leave a
non-empty candidate set), the selected route passes every rule, every route
registered before it fails some rule, and — the selection being `routes[0]`
of an insertion-ordered table — the dispatch is deterministic
first-registered-wins. -/
theorem router_first_registered_wins {Env Val : Type} (env : Env) :
    ∀ (rules : List (RuleM Env Val)) (i : Nat) (routes : List (List Val))
      (r : List Val),
      routerLoop env rules i routes = some (Except.ok r) →
      ∃ pre suf, routes = pre ++ r :: suf ∧
        passesAll env rules i r = some true ∧
        ∀ q ∈ pre, passesAll env rules i q = some false := by
  intro rules
  induction rules with
  | nil =>
    intro i routes r h
    cases routes with
    | nil => rw [routerLoop] at h; cases h
    | cons x xs =>
      have hx : x = r := by
        rw [routerLoop] at h
        exact Except.ok.inj (Option.some.inj h)
      subst hx
      exact ⟨[], xs, rfl, rfl, fun q hq => absurd hq (List.not_mem_nil q)⟩
  | cons rule rtl ih =>
    intro i routes r h
    cases hf : filterRoutes rule env i routes with
    | none => rw [routerLoop, hf] at h; cases h
    | some survivors =>
      cases survivors with
      | nil =>
        rw [routerLoop, hf] at h
        cases Option.some.inj h
      | cons x xs =>
        have hx : routerLoop env rtl (i + 1) (x :: xs) = some (Except.ok r) := by
          rw [routerLoop, hf] at h
          exact h
        obtain ⟨pre1, suf1, hsurv, hpass, hpre1⟩ := ih (i + 1) (x :: xs) r hx
        obtain ⟨A, B, hAB, hstep, hA⟩ :=
          filterRoutes_keeps rule env i routes (x :: xs) hf pre1 r suf1 hsurv
        refine ⟨A, B, hAB, ?_, ?_⟩
        · rw [passesAll_cons_true env rule rtl i r hstep]
          exact hpass
        · intro q hq
          rcases hA q hq with hf2 | ⟨ht2, hm2⟩
          · exact passesAll_cons_false env rule rtl i q hf2
          · rw [passesAll_cons_true env rule rtl i q ht2]
            exact hpre1 q hm2

/-- Witness for C8: an ambiguous table whose two routes both survive the
`[Path, Method]` dimensions; the router dispatches the first-registered
one. -/
theorem router_first_registered_wins_witness :
    routerCall [pathRuleM, methodRuleM] [route8a, route8b] env8 =
        some (Except.ok route8a) ∧
      ∃ pre suf, [route8a, route8b] = pre ++ route8a :: suf ∧
        passesAll env8 [pathRuleM, methodRuleM] 0 route8a = some true ∧
        ∀ q ∈ pre, passesAll env8 [pathRuleM, methodRuleM] 0 q = some false :=
  ⟨rfl,
    router_first_registered_wins env8 [pathRuleM, methodRuleM] 0
      [route8a, route8b] route8a rfl⟩

/-! ## C7: the Object filter -/

theorem lookupV_eq_none_of_not_mem {kvs : List (Str × JSONValue)} {k : Str}
    (h : k ∉ kvs.map Prod.fst) : lookupV kvs k = none := by
  unfold lookupV
  have hf : List.find? (fun kv => decide (kv.1 = k)) kvs = none := by
    rw [List.find?_eq_none]
    intro kv hkv
    simp only [decide_eq_true_eq]
    intro he
    exact h (by rw [← he]; exact List.mem_map_of_mem Prod.fst hkv)
  rw [hf]
  rfl

theorem lookupV_exists_of_mem {kvs : List (Str × JSONValue)} {k : Str}
    (h : k ∈ kvs.map Prod.fst) : ∃ vv, lookupV kvs k = some vv := by
  cases hl : lookupV kvs k with
  | none => exact absurd hl (lookupV_ne_none_of_mem h)
  | some vv => exact ⟨vv, rfl⟩

theorem filter_keys_cons_of_no_k (vk ks : List Str) (k : Str)
    (h : ∀ x ∈ vk, ¬ x = k) :
    vk.filter (fun x => decide (¬ x ∈ k :: ks)) =
      vk.filter (fun x => decide (¬ x ∈ ks)) := by
  apply List.filter_congr
  intro x hx
  simp [List.mem_cons, h x hx]

theorem erase_filter_keys (k : Str) (ks : List Str) :
    ∀ (vk : List Str), vk.Nodup →
      (vk.erase k).filter (fun x => decide (¬ x ∈ ks)) =
        vk.filter (fun x => decide (¬ x ∈ k :: ks)) := by
  intro vk
  induction vk with
  | nil => intro _; rfl
  | cons x xs ih =>
    intro hnd
    have hx_nin : x ∉ xs := (List.nodup_cons.mp hnd).1
    have hnd2 : xs.Nodup := (List.nodup_cons.mp hnd).2
    by_cases hx : x = k
    · subst hx
      rw [List.erase_cons_head]
      have hdrop : (x :: xs).filter (fun y => decide (¬ y ∈ x :: ks)) =
          xs.filter (fun y => decide (¬ y ∈ x :: ks)) := by
        simp [List.filter_cons]
      rw [hdrop]
      exact (filter_keys_cons_of_no_k xs ks x
        (fun y hy hyk => hx_nin (hyk ▸ hy))).symm
    · rw [List.erase_cons_tail (by simp [hx])]
      have hcond : decide (¬ x ∈ k :: ks) = decide (¬ x ∈ ks) := by
        rw [decide_eq_decide]
        exact not_congr (by simp [List.mem_cons, hx])
      rw [List.filter_cons, List.filter_cons, hcond, ih hnd2]

theorem objectLoop_eq_specLoop (ig : Bool) (kvs : List (Str × JSONValue)) :
    ∀ (es : List (Str × Filt × Bool)) (vk : List Str),
      vk.Nodup →
      (∀ k ∈ es.map (fun e => e.1), (k ∈ vk ↔ k ∈ kvs.map Prod.fst)) →
      (es.map (fun e => e.1)).Nodup →
      objectLoop ig kvs es vk =
        specLoop kvs es
          (endVerdict
            (vk.filter (fun k => decide (¬ k ∈ es.map (fun e => e.1)))) ig) := by
  intro es
  induction es with
  | nil =>
    intro vk _ _ _
    have hfe : vk.filter
        (fun k => decide (¬ k ∈ ([] : List (Str × Filt × Bool)).map
          (fun e => e.1))) = vk := by
      simp
    rw [hfe]
    cases vk <;> cases ig <;> rfl
  | cons e rest ih =>
    obtain ⟨k, f, opt⟩ := e
    intro vk hnd hdisj hndk
    have hdisj_k : k ∈ vk ↔ k ∈ kvs.map Prod.fst :=
      hdisj k (by simp)
    have hndk2 : (rest.map (fun e => e.1)).Nodup := (List.nodup_cons.mp hndk).2
    have hk_nin_rest : ¬ k ∈ rest.map (fun e => e.1) :=
      (List.nodup_cons.mp hndk).1
    have hdisj2 : ∀ q ∈ rest.map (fun e => e.1),
        (q ∈ vk.erase k ↔ q ∈ kvs.map Prod.fst) := by
      intro q hq
      have hqk : q ≠ k := fun he => hk_nin_rest (he ▸ hq)
      rw [List.mem_erase_of_ne hqk]
      exact hdisj q (List.mem_cons_of_mem _ hq)
    have hdisj3 : ∀ q ∈ rest.map (fun e => e.1),
        (q ∈ vk ↔ q ∈ kvs.map Prod.fst) :=
      fun q hq => hdisj q (List.mem_cons_of_mem _ hq)
    by_cases hk : k ∈ vk
    · have hk_kvs : k ∈ kvs.map Prod.fst := hdisj_k.mp hk
      obtain ⟨vv, hl⟩ := lookupV_exists_of_mem hk_kvs
      by_cases hc : (f vv).1 = true
      · have hL : objectLoop ig kvs ((k, f, opt) :: rest) vk =
            objectLoop ig kvs rest (vk.erase k) := by
          simp [objectLoop, hk, hl, hc]
        rw [hL, ih (vk.erase k) (hnd.erase k) hdisj2 hndk2]
        have hR : specLoop kvs ((k, f, opt) :: rest)
              (endVerdict (vk.filter (fun q => decide
                (¬ q ∈ ((k, f, opt) :: rest).map (fun e => e.1)))) ig) =
            specLoop kvs rest
              (endVerdict (vk.filter (fun q => decide
                (¬ q ∈ ((k, f, opt) :: rest).map (fun e => e.1)))) ig) := by
          simp [specLoop, hl, hc]
        rw [hR]
        rw [erase_filter_keys k (rest.map (fun e => e.1)) vk hnd]
        simp only [List.map_cons]
      · have hL : objectLoop ig kvs ((k, f, opt) :: rest) vk =
            (false, k ++ chars ": " ++ (f vv).2) := by
          simp [objectLoop, hk, hl, hc]
        have hR : specLoop kvs ((k, f, opt) :: rest)
              (endVerdict (vk.filter (fun q => decide
                (¬ q ∈ ((k, f, opt) :: rest).map (fun e => e.1)))) ig) =
            (false, k ++ chars ": " ++ (f vv).2) := by
          simp [specLoop, hl, hc]
        rw [hL, hR]
    · have hk_kvs : ¬ k ∈ kvs.map Prod.fst := fun hmem => hk (hdisj_k.mpr hmem)
      have hl : lookupV kvs k = none := lookupV_eq_none_of_not_mem hk_kvs
      have hfilters : vk.filter (fun q => decide
            (¬ q ∈ ((k, f, opt) :: rest).map (fun e => e.1))) =
          vk.filter (fun q => decide (¬ q ∈ rest.map (fun e => e.1))) := by
        simp only [List.map_cons]
        exact filter_keys_cons_of_no_k vk (rest.map (fun e => e.1)) k
          (fun x hx he => hk (he ▸ hx))
      by_cases ho : opt = true
      · have hL : objectLoop ig kvs ((k, f, opt) :: rest) vk =
            objectLoop ig kvs rest vk := by
          simp [objectLoop, hk, ho]
        have hR : specLoop kvs ((k, f, opt) :: rest)
              (endVerdict (vk.filter (fun q => decide
                (¬ q ∈ ((k, f, opt) :: rest).map (fun e => e.1)))) ig) =
            specLoop kvs rest
              (endVerdict (vk.filter (fun q => decide
                (¬ q ∈ ((k, f, opt) :: rest).map (fun e => e.1)))) ig) := by
          simp [specLoop, hl, ho]
        rw [hL, hR, hfilters]
        exact ih vk hnd hdisj3 hndk2
      · have hL : objectLoop ig kvs ((k, f, opt) :: rest) vk =
            (false, chars "entry with key \x27" ++ k ++
              chars "\x27 required") := by
          simp [objectLoop, hk, ho]
        have hR : specLoop kvs ((k, f, opt) :: rest)
              (endVerdict (vk.filter (fun q => decide
                (¬ q ∈ ((k, f, opt) :: rest).map (fun e => e.1)))) ig) =
            (false, chars "entry with key \x27" ++ k ++
              chars "\x27 required") := by
          simp [specLoop, hl, ho]
        rw [hL, hR]

/-- C7 (confirmed): with the key-uniqueness Python dicts guarantee, the
`Object` filter coincides with the spec-side model: non-mappings are
rejected; declared keys are processed in order, a present key failing its
child filter yields `key: child-reason`, an absent required key yields the
missing-required-key reason; afterwards, unconsumed keys fail (naming the
first one in the value's order) unless extra keys are allowed, in which
case leftovers are ignored. -/
theorem object_filter_matches_spec (entries : List (Str × Filt × Bool))
    (ig : Bool) (v : JSONValue)
    (hentries : (entries.map (fun e => e.1)).Nodup)
    (hv : ∀ kvs, v = JSONValue.obj kvs → (kvs.map Prod.fst).Nodup) :
    objectCall entries ig v = specObject entries ig v := by
  cases v with
  | obj kvs =>
    have hnd := hv kvs rfl
    show objectLoop ig kvs entries (kvs.map Prod.fst) =
      specLoop kvs entries (endVerdict (specLeftover entries kvs) ig)
    exact objectLoop_eq_specLoop ig kvs entries (kvs.map Prod.fst) hnd
      (fun k _ => Iff.rfl) hentries
  | null => rfl
  | bool b => rfl
  | int n => rfl
  | float q => rfl
  | str st => rfl
  | arr l => rfl

/-- Witness for C7 at the claim's own example: schema
`{id: Number(min=0, require_int=True), description: optional String}` with
extra keys disallowed rejects `{"id": 5, "extra": 1}` naming `'extra'`. -/
theorem object_filter_matches_spec_witness :
    (entries7.map (fun e => e.1)).Nodup ∧
      objectCall entries7 false (JSONValue.obj value7) =
        specObject entries7 false (JSONValue.obj value7) ∧
      objectCall entries7 false (JSONValue.obj value7) =
        (false, chars "unsupported key \x27extra\x27") := by
  refine ⟨by decide,
    object_filter_matches_spec entries7 false (JSONValue.obj value7)
      (by decide) ?_, by decide⟩
  intro kvs h
  cases h
  decide

/-! ## C2: PathRule.check against the decomposition spec -/

theorem pyFind_pos {hay sub : Str} (h : hay.take sub.length = sub) :
    pyFind hay sub = some 0 := by
  unfold pyFind
  rw [if_pos h]

theorem pyFind_neg_nil {sub : Str} (h : ¬ (([] : Str).take sub.length = sub)) :
    pyFind [] sub = none := by
  unfold pyFind
  rw [if_neg h]

theorem pyFind_neg_cons {c : Char} {t sub : Str}
    (h : ¬ ((c :: t).take sub.length = sub)) :
    pyFind (c :: t) sub = Option.map (fun n => n + 1) (pyFind t sub) := by
  conv_lhs => unfold pyFind
  rw [if_neg h]

theorem occursAt_zero {sub s : Str} : OccursAt sub s 0 ↔ s.take sub.length = sub := by
  unfold OccursAt
  rw [List.drop_zero]

theorem occursAt_succ_cons {sub : Str} {c : Char} {t : Str} {n : Nat} :
    OccursAt sub (c :: t) (n + 1) ↔ OccursAt sub t n := by
  unfold OccursAt
  rw [List.drop_succ_cons]

theorem pyFind_some_first (sub : Str) :
    ∀ (s : Str) (n : Nat), pyFind s sub = some n →
      OccursAt sub s n ∧ ∀ j, j < n → ¬ OccursAt sub s j := by
  intro s
  induction s with
  | nil =>
    intro n h
    by_cases h0 : (([] : Str).take sub.length = sub)
    · rw [pyFind_pos h0] at h
      have hn : n = 0 := (Option.some.inj h).symm
      subst hn
      exact ⟨occursAt_zero.mpr h0, fun j hj => absurd hj (Nat.not_lt_zero j)⟩
    · rw [pyFind_neg_nil h0] at h
      cases h
  | cons c t ih =>
    intro n h
    by_cases h0 : ((c :: t).take sub.length = sub)
    · rw [pyFind_pos h0] at h
      have hn : n = 0 := (Option.some.inj h).symm
      subst hn
      exact ⟨occursAt_zero.mpr h0, fun j hj => absurd hj (Nat.not_lt_zero j)⟩
    · rw [pyFind_neg_cons h0] at h
      cases hft : pyFind t sub with
      | none => rw [hft] at h; cases h
      | some m =>
        rw [hft] at h
        have hn : n = m + 1 := (Option.some.inj h).symm
        subst hn
        obtain ⟨hocc, hmin⟩ := ih m hft
        refine ⟨occursAt_succ_cons.mpr hocc, ?_⟩
        intro j hj
        cases j with
        | zero => exact fun ho => h0 (occursAt_zero.mp ho)
        | succ j2 =>
          intro ho
          exact hmin j2 (by omega) (occursAt_succ_cons.mp ho)

theorem pyFind_complete (sub : Str) :
    ∀ (s : Str) (n : Nat), OccursAt sub s n →
      (∀ j, j < n → ¬ OccursAt sub s j) → pyFind s sub = some n := by
  intro s
  induction s with
  | nil =>
    intro n hocc hmin
    have h0 : ([] : Str).take sub.length = sub := by
      have : (([] : Str).drop n).take sub.length = sub := hocc
      rwa [List.drop_nil] at this
    cases n with
    | zero => exact pyFind_pos h0
    | succ n2 =>
      exact absurd (occursAt_zero.mpr h0) (hmin 0 (Nat.succ_pos n2))
  | cons c t ih =>
    intro n hocc hmin
    by_cases h0 : ((c :: t).take sub.length = sub)
    · cases n with
      | zero => exact pyFind_pos h0
      | succ n2 =>
        exact absurd (occursAt_zero.mpr h0) (hmin 0 (Nat.succ_pos n2))
    · cases n with
      | zero => exact absurd (occursAt_zero.mp hocc) h0
      | succ n2 =>
        have hocc2 : OccursAt sub t n2 := occursAt_succ_cons.mp hocc
        have hmin2 : ∀ j, j < n2 → ¬ OccursAt sub t j := by
          intro j hj ho
          exact hmin (j + 1) (by omega) (occursAt_succ_cons.mpr ho)
        rw [pyFind_neg_cons h0, ih n2 hocc2 hmin2]
        rfl

theorem pyFind_none_no_occ (sub : Str) :
    ∀ (s : Str), pyFind s sub = none → ∀ i, ¬ OccursAt sub s i := by
  intro s
  induction s with
  | nil =>
    intro h i ho
    by_cases h0 : (([] : Str).take sub.length = sub)
    · rw [pyFind_pos h0] at h; cases h
    · have : ((([] : Str)).drop i).take sub.length = sub := ho
      rw [List.drop_nil] at this
      exact h0 this
  | cons c t ih =>
    intro h i ho
    by_cases h0 : ((c :: t).take sub.length = sub)
    · rw [pyFind_pos h0] at h; cases h
    · rw [pyFind_neg_cons h0] at h
      cases hft : pyFind t sub with
      | some m => rw [hft] at h; cases h
      | none =>
        cases i with
        | zero => exact h0 (occursAt_zero.mp ho)
        | succ i2 => exact ih hft i2 (occursAt_succ_cons.mp ho)


theorem pathAux_correct {α : Type} :
    ∀ (b : Bool) (pattern : List (PatElem α)), Alternating b pattern →
      ∀ (path : Str) (acc : List α),
        (∀ res, pathAux b pattern path acc = some (some res) ↔
          ∃ args, res = acc ++ args ∧ Decomp pattern path args) ∧
        pathAux b pattern path acc ≠ none := by
  intro b pattern halt
  induction halt with
  | nil b2 =>
    intro path acc
    constructor
    · intro res
      constructor
      · intro h
        by_cases hp : path = []
        · subst hp
          have h2 : some (some acc) = some (some res) := by
            simp only [pathAux, if_pos] at h
            simp at h
            simp [h]
          refine ⟨[], ?_, Decomp.nil⟩
          rw [List.append_nil]
          exact (Option.some.inj (Option.some.inj h2)).symm
        · exfalso
          have h2 : pathAux b2 ([] : List (PatElem α)) path acc = some none := by
            simp [pathAux, hp]
          rw [h2] at h
          cases Option.some.inj h
      · rintro ⟨args, hres, hd⟩
        cases hd
        simp [pathAux, hres]
    · simp [pathAux]
  | lit l rest halt2 ih =>
    intro path acc
    by_cases hpre : path.take l.length = l
    · have hstep : pathAux true (PatElem.lit l :: rest) path acc =
          pathAux false rest (path.drop l.length) acc := by
        simp [pathAux, hpre]
      have hsplit : l ++ path.drop l.length = path := by
        conv_rhs => rw [← List.take_append_drop l.length path]
        rw [hpre]
      constructor
      · intro res
        rw [hstep, (ih (path.drop l.length) acc).1 res]
        constructor
        · rintro ⟨args, hres, hd⟩
          exact ⟨args, hres,
            hsplit ▸ Decomp.lit l rest (path.drop l.length) args hd⟩
        · rintro ⟨args, hres, hd⟩
          cases hd with
          | lit l2 rest2 p2 args2 hd2 =>
            refine ⟨args, hres, ?_⟩
            rw [List.drop_left]
            exact hd2
      · rw [hstep]
        exact (ih (path.drop l.length) acc).2
    · have hstep : pathAux true (PatElem.lit l :: rest) path acc = some none := by
        simp [pathAux, hpre]
      constructor
      · intro res
        rw [hstep]
        constructor
        · intro h
          cases Option.some.inj h
        · rintro ⟨args, hres, hd⟩
          cases hd with
          | lit l2 rest2 p2 args2 hd2 =>
            exact absurd (List.take_left l p2) hpre
      · rw [hstep]
        intro h
        cases h
  | conv f rest halt2 ih =>
    intro path acc
    cases rest with
    | nil =>
      cases hf : f path with
      | some a =>
        have hstep : pathAux false [PatElem.conv f] path acc =
            some (some (acc ++ [a])) := by
          simp [pathAux, convSplit, hf]
        constructor
        · intro res
          rw [hstep]
          constructor
          · intro h
            exact ⟨[a], (Option.some.inj (Option.some.inj h)).symm,
              Decomp.convLast f path a hf⟩
          · rintro ⟨args, hres, hd⟩
            cases hd with
            | convLast f2 p2 a2 hf2 =>
              have ha : a2 = a := Option.some.inj (hf2.symm.trans hf)
              rw [hres, ha]
        · rw [hstep]
          intro h
          cases h
      | none =>
        have hstep : pathAux false [PatElem.conv f] path acc = some none := by
          simp [pathAux, convSplit, hf]
        constructor
        · intro res
          rw [hstep]
          constructor
          · intro h
            cases Option.some.inj h
          · rintro ⟨args, hres, hd⟩
            cases hd with
            | convLast f2 p2 a2 hf2 =>
              rw [hf] at hf2
              cases hf2
        · rw [hstep]
          intro h
          cases h
    | cons e2 rest2 =>
      cases halt2 with
      | lit nl rest3 halt3 =>
        cases hfind : pyFind path nl with
        | none =>
          have hstep : pathAux false
              (PatElem.conv f :: PatElem.lit nl :: rest2) path acc =
              some none := by
            simp [pathAux, convSplit, hfind]
          constructor
          · intro res
            rw [hstep]
            constructor
            · intro h
              cases Option.some.inj h
            · rintro ⟨args, hres, hd⟩
              cases hd with
              | convMid f2 nl2 rest4 seg p2 a2 args2 hfo hfa hd2 =>
                have hocc : OccursAt nl (seg ++ p2) seg.length := by
                  show ((seg ++ p2).drop seg.length).take nl.length = nl
                  rw [List.drop_left]
                  exact hfo.1
                exact
                  (pyFind_none_no_occ nl (seg ++ p2) hfind seg.length hocc).elim
          · rw [hstep]
            intro h
            cases h
        | some ce =>
          obtain ⟨hoccce, hmince⟩ := pyFind_some_first nl path ce hfind
          cases hfa : f (path.take ce) with
          | some a =>
            have hstep : pathAux false
                (PatElem.conv f :: PatElem.lit nl :: rest2) path acc =
                pathAux true (PatElem.lit nl :: rest2) (path.drop ce)
                  (acc ++ [a]) := by
              simp [pathAux, convSplit, hfind, hfa]
            constructor
            · intro res
              rw [hstep, (ih (path.drop ce) (acc ++ [a])).1 res]
              constructor
              · rintro ⟨args2, hres, hd2⟩
                refine ⟨a :: args2, by rw [hres]; simp, ?_⟩
                have hFO : FirstOcc nl (path.take ce) (path.drop ce) := by
                  refine ⟨hoccce, ?_⟩
                  intro i hi hocc
                  have hle : (path.take ce).length ≤ ce := by
                    rw [List.length_take]
                    exact Nat.min_le_left ce path.length
                  have hice : i < ce := Nat.lt_of_lt_of_le hi hle
                  rw [List.take_append_drop] at hocc
                  exact hmince i hice hocc
                have hD := Decomp.convMid f nl rest2 (path.take ce)
                  (path.drop ce) a args2 hFO hfa hd2
                rwa [List.take_append_drop] at hD
              · rintro ⟨args, hres, hd⟩
                cases hd with
                | convMid f2 nl2 rest4 seg p2 a2 args2 hfo hfa2 hd2 =>
                  have hps : pyFind (seg ++ p2) nl = some seg.length := by
                    apply pyFind_complete
                    · show ((seg ++ p2).drop seg.length).take nl.length = nl
                      rw [List.drop_left]
                      exact hfo.1
                    · exact hfo.2
                  have hce : ce = seg.length :=
                    Option.some.inj (hfind.symm.trans hps)
                  have hsegeq : (seg ++ p2).take ce = seg := by
                    rw [hce]
                    exact List.take_left seg p2
                  have hpeq : (seg ++ p2).drop ce = p2 := by
                    rw [hce]
                    exact List.drop_left seg p2
                  rw [hsegeq] at hfa
                  have ha : a2 = a := Option.some.inj (hfa2.symm.trans hfa)
                  refine ⟨args2, ?_, ?_⟩
                  · rw [hres, ha]
                    simp
                  · rw [hpeq]
                    exact hd2
            · rw [hstep]
              exact (ih (path.drop ce) (acc ++ [a])).2
          | none =>
            have hstep : pathAux false
                (PatElem.conv f :: PatElem.lit nl :: rest2) path acc =
                some none := by
              simp [pathAux, convSplit, hfind, hfa]
            constructor
            · intro res
              rw [hstep]
              constructor
              · intro h
                cases Option.some.inj h
              · rintro ⟨args, hres, hd⟩
                cases hd with
                | convMid f2 nl2 rest4 seg p2 a2 args2 hfo hfa2 hd2 =>
                  have hps : pyFind (seg ++ p2) nl = some seg.length := by
                    apply pyFind_complete
                    · show ((seg ++ p2).drop seg.length).take nl.length = nl
                      rw [List.drop_left]
                      exact hfo.1
                    · exact hfo.2
                  have hce : ce = seg.length :=
                    Option.some.inj (hfind.symm.trans hps)
                  have hsegeq : (seg ++ p2).take ce = seg := by
                    rw [hce]
                    exact List.take_left seg p2
                  rw [hsegeq] at hfa
                  rw [hfa] at hfa2
                  cases hfa2
            · rw [hstep]
              intro h
              cases h

/-- C2 (confirmed): for a well-formed pattern (literal first, strictly
alternating literals and converters), `PathRule.check` returns `True`
exactly when the path decomposes per `Decomp` — literals as exact prefixes,
each converter consuming up to the first occurrence of the next literal (or
the whole remainder when last) and parsing successfully, empty remainder —
and then the captured values are the converter outputs in pattern order;
otherwise it returns `False` (never an exception). -/
theorem pathRule_check_correct {α : Type} (pattern : List (PatElem α))
    (hwf : WellFormedPat pattern) (path : Str) (selfArgs : List α) :
    (∀ args, pathRuleCheck selfArgs pattern path = some (true, args) ↔
      Decomp pattern path args) ∧
    (pathRuleCheck selfArgs pattern path = some (false, selfArgs) ∨
      ∃ args, pathRuleCheck selfArgs pattern path = some (true, args)) := by
  obtain ⟨hiff, hnn⟩ := pathAux_correct true pattern hwf path ([] : List α)
  constructor
  · intro args
    unfold pathRuleCheck
    cases hA : pathAux true pattern path ([] : List α) with
    | none => exact absurd hA hnn
    | some o =>
      cases o with
      | none =>
        constructor
        · intro h
          cases (Prod.mk.inj (Option.some.inj h)).1
        · intro hd
          have hx := (hiff args).mpr ⟨args, (List.nil_append args).symm, hd⟩
          rw [hA] at hx
          cases Option.some.inj hx
      | some res =>
        obtain ⟨args2, hres2, hd2⟩ := (hiff res).mp hA
        rw [List.nil_append] at hres2
        constructor
        · intro h
          have heq : res = args := (Prod.mk.inj (Option.some.inj h)).2
          rw [← heq, hres2]
          exact hd2
        · intro hd
          have hx := (hiff args).mpr ⟨args, (List.nil_append args).symm, hd⟩
          rw [hA] at hx
          have heq : res = args := Option.some.inj (Option.some.inj hx)
          rw [heq]
  · unfold pathRuleCheck
    cases hA : pathAux true pattern path ([] : List α) with
    | none => exact absurd hA hnn
    | some o =>
      cases o with
      | none =>
        left
        rfl
      | some res =>
        right
        exact ⟨res, rfl⟩

/-- Witness for C2 at the pattern `('/id/', int)` and the path `'/id/42'`:
well-formed, the check succeeds capturing `[42]`, and the theorem converts
the evaluation into the spec-side decomposition. -/
theorem pathRule_check_correct_witness :
    WellFormedPat pat2w ∧
      pathRuleCheck ([] : List Int) pat2w (chars "/id/42") =
        some (true, [(42 : Int)]) ∧
      Decomp pat2w (chars "/id/42") [(42 : Int)] := by
  have hwf : WellFormedPat pat2w :=
    Alternating.lit (chars "/id/") [PatElem.conv intConv]
      (Alternating.conv intConv [] (Alternating.nil true))
  have heval : pathRuleCheck ([] : List Int) pat2w (chars "/id/42") =
      some (true, [(42 : Int)]) := rfl
  exact ⟨hwf, heval,
    ((pathRule_check_correct pat2w hwf (chars "/id/42")
        ([] : List Int)).1 [(42 : Int)]).mp heval⟩

end WsgiTools
